import Mathlib

/-!
Verification of the 9fans-go connection/fid-lifecycle core against its
specification.  The proxy server and the Mount functions are embedded
directly from the Go source (src/plan9/client/conn_test.go,
src/acme/acme_p9p.go, src/acme/acme_plan9.go); the client-side fid
lifecycle manager and the message codec are not part of the visible
source and are modelled from the spec where a claim needs them.
-/

namespace NineFans

/-! ## Protocol constants, mirroring package plan9 -/

def Tversion : Nat := 100
def Rversion : Nat := 101
def Tattach : Nat := 104
def Rattach : Nat := 105
def Rerror : Nat := 107
def Twalk : Nat := 110
def Rwalk : Nat := 111
def Topen : Nat := 112
def Ropen : Nat := 113
def Tclunk : Nat := 120
def Rclunk : Nat := 121

def NOTAG : Nat := 65535

def QTDIR : Nat := 128
def QTFILE : Nat := 0

/-- Qid mirrors plan9.Qid: a server-issued object identifier. -/
structure Qid where
  qtype : Nat := 0
  vers : Nat := 0
  path : Nat := 0
deriving Repr, DecidableEq

/-- Fcall mirrors plan9.Fcall restricted to the fields the proxy server
uses: message type, tag, fid, newfid, walk names, msize, version string,
error string, qid and walk qids.  Unused fields default to zero values
as in Go. -/
structure Fcall where
  ftype : Nat := 0
  tag : Nat := 0
  fid : Nat := 0
  newfid : Nat := 0
  wname : List String := []
  msize : Nat := 0
  version : String := ""
  ename : String := ""
  qid : Qid := {}
  wqid : List Qid := []
deriving Repr, DecidableEq

/-! ## The proxy server, embedded from (*proxyServer).serve

The Go server reads requests sequentially.  The first message is
answered with Rversion (tag NOTAG, echoing Msize), the second with
Rattach (the fid entered in the live table), and the loop then handles
Twalk / Topen / Tclunk / default.  A Tclunk does not reply at once: a
goroutine sleeps clunkDelay, deletes the fid from the table and only
then sends Rclunk.  We model that delayed goroutine as a separate
`fire` event that may occur at any later point in the event sequence,
and the table/pending/sent trace as explicit state. -/

inductive Phase where
  | waitVersion
  | waitAttach
  | loop
deriving Repr, DecidableEq

structure ProxyState where
  phase : Phase := .waitVersion
  fids : List Nat := []
  pending : List (Nat × Nat) := []
  sent : List Fcall := []
deriving Repr, DecidableEq

/-- Map-style insert: `s.fids[f.Newfid] = true` on a Go map is
idempotent, so inserting an already-present fid leaves the set as is. -/
def insertFid (l : List Nat) (n : Nat) : List Nat :=
  if n ∈ l then l else n :: l

/-- An event the proxy processes: either it reads one request from the
connection, or a delayed clunk goroutine fires (deleting the fid and
sending the Rclunk carrying the remembered tag). -/
inductive Ev where
  | recv (f : Fcall)
  | fire (tag fid : Nat)
deriving Repr, DecidableEq

/-- Response sent for the first message read: lines 41-42 of
conn_test.go, `Type: Rversion, Tag: NOTAG, Msize: f.Msize,
Version: "9P2000"`. -/
def rversionResp (f : Fcall) : Fcall :=
  { ftype := Rversion, tag := NOTAG, msize := f.msize, version := "9P2000" }

/-- Response sent for the attach message: `Type: Rattach, Tag: f.Tag,
Qid: Qid{Type: QTDIR}`. -/
def rattachResp (f : Fcall) : Fcall :=
  { ftype := Rattach, tag := f.tag, qid := { qtype := QTDIR } }

/-- Response for a non-duplicate Twalk: `Type: Rwalk, Tag: f.Tag,
Wqid: wqid` with one `Qid{Type: QTFILE, Path: 1}` per walked name. -/
def rwalkResp (f : Fcall) : Fcall :=
  { ftype := Rwalk, tag := f.tag,
    wqid := f.wname.map (fun _ => { qtype := QTFILE, path := 1 }) }

/-- Error response with the request's tag. -/
def rerrorResp (t : Nat) (msg : String) : Fcall :=
  { ftype := Rerror, tag := t, ename := msg }

/-- One step of the proxy server.  `recv` follows (*proxyServer).serve
line by line; `fire` is the body of the goroutine spawned for a Tclunk
(delete the fid from the table, then send Rclunk), and is a no-op
unless such a clunk is actually outstanding. -/
def proxyStep (st : ProxyState) (e : Ev) : ProxyState :=
  match e with
  | .recv f =>
    match st.phase with
    | .waitVersion =>
      { st with phase := .waitAttach, sent := st.sent ++ [rversionResp f] }
    | .waitAttach =>
      { st with
        phase := .loop
        fids := insertFid st.fids f.fid
        sent := st.sent ++ [rattachResp f] }
    | .loop =>
      if f.ftype = Twalk then
        let dup := f.newfid ∈ st.fids ∧ f.newfid ≠ f.fid
        if dup then
          { st with sent := st.sent ++ [rerrorResp (f.tag) "duplicate fid"] }
        else
          { st with
            fids := insertFid st.fids f.newfid
            sent := st.sent ++ [rwalkResp f] }
      else if f.ftype = Topen then
        { st with sent := st.sent ++
            [{ ftype := Ropen, tag := f.tag
               qid := { qtype := QTFILE, path := 1 } }] }
      else if f.ftype = Tclunk then
        { st with pending := st.pending ++ [(f.tag, f.fid)] }
      else
        { st with sent := st.sent ++ [rerrorResp (f.tag) "not supported"] }
  | .fire t fd =>
    if (t, fd) ∈ st.pending then
      { st with
        fids := st.fids.filter (fun n => n ≠ fd)
        pending := st.pending.eraseP (fun p => p = (t, fd))
        sent := st.sent ++ [{ ftype := Rclunk, tag := t }] }
    else
      st

def proxyRun (evs : List Ev) (st : ProxyState := {}) : ProxyState :=
  evs.foldl proxyStep st

/-- Replies appended to the wire by one proxy step (the Go code sends
them on `s.out`; the model records them at the end of `sent`). -/
def stepReplies (st : ProxyState) (e : Ev) : List Fcall :=
  (proxyStep st e).sent.drop st.sent.length

/-! ## Fid Lifecycle Manager

Modelled from the spec: the client-side Fid Lifecycle Manager
(spec section 4.3) is not among the visible source files — only its
regression test is — so it is embedded from the spec's words:
`allocate` returns a number currently in no live state, reusing a
previously freed number when available and otherwise the next unused
number, and marks it `allocated`; `markActive` moves
`allocated -> active`; `beginRetire` moves `active -> retiring`;
`confirmRetire`, called only on receipt of the server's retirement
acknowledgment, moves `retiring -> free` and is the only transition
that populates the free list. -/

inductive FidState where
  | unused
  | allocated
  | active
  | retiring
  | free
deriving Repr, DecidableEq

structure FidMgr where
  tbl : List (Nat × FidState) := []
  freefid : List Nat := []
  next : Nat := 0
deriving Repr, DecidableEq

namespace FidMgr

/-- Liveness state of a fid number; numbers never mentioned are unused. -/
def stateOf (m : FidMgr) (n : Nat) : FidState :=
  (m.tbl.lookup n).getD .unused

def setSt (m : FidMgr) (n : Nat) (s : FidState) : FidMgr :=
  { m with tbl := (n, s) :: m.tbl }

/-- Modelled from the spec: reuse a previously freed number when
available, otherwise take the next unused number; mark it allocated. -/
def allocate (m : FidMgr) : Nat × FidMgr :=
  match m.freefid with
  | n :: rest => (n, { setSt m n .allocated with freefid := rest })
  | [] => (m.next, { setSt m m.next .allocated with next := m.next + 1 })

/-- Modelled from the spec: called after the server's establishment
response is received. -/
def markActive (m : FidMgr) (n : Nat) : FidMgr :=
  if m.stateOf n = .allocated then m.setSt n .active else m

/-- Modelled from the spec: the caller has sent the retirement request
but must not yet release the number for reuse. -/
def beginRetire (m : FidMgr) (n : Nat) : FidMgr :=
  if m.stateOf n = .active then m.setSt n .retiring else m

/-- Modelled from the spec: called only upon receipt of the server's
retirement acknowledgment; the sole transition populating the free
list. -/
def confirmRetire (m : FidMgr) (n : Nat) : FidMgr :=
  if m.stateOf n = .retiring then
    { m.setSt n .free with freefid := m.freefid ++ [n] }
  else m

/-- Modelled from the spec: a fid allocated for a walk that the server
rejects is freed immediately (the server never had it, spec
section 4.4). -/
def freeOnFailure (m : FidMgr) (n : Nat) : FidMgr :=
  if m.stateOf n = .allocated then
    { m.setSt n .free with freefid := m.freefid ++ [n] }
  else m

end FidMgr

/-- The allocate/retire operation alphabet of the manager. -/
inductive FOp where
  | alloc
  | markActive (n : Nat)
  | beginRetire (n : Nat)
  | confirmRetire (n : Nat)
deriving Repr, DecidableEq

def fstep (m : FidMgr) : FOp → FidMgr
  | .alloc => (m.allocate).2
  | .markActive n => m.markActive n
  | .beginRetire n => m.beginRetire n
  | .confirmRetire n => m.confirmRetire n

def runF (l : List FOp) : FidMgr :=
  l.foldl fstep {}

/-- The fid number the manager would hand out next. -/
def allocFid (m : FidMgr) : Nat :=
  (m.allocate).1

/-- A fid number the client considers established or in flight:
reserved, acknowledged, or awaiting retirement acknowledgment. -/
def Live (m : FidMgr) (n : Nat) : Prop :=
  m.stateOf n = .allocated ∨ m.stateOf n = .active ∨ m.stateOf n = .retiring

/-- Internal well-formedness of the manager: free-listed numbers are
free, the free list holds no duplicates, and numbers at or past `next`
are untouched. -/
def Wf (m : FidMgr) : Prop :=
  (∀ n ∈ m.freefid, m.stateOf n = .free) ∧ m.freefid.Nodup ∧
    (∀ n, m.next ≤ n → m.stateOf n = .unused)

/-! ## The regression scenario of TestFidRecycle

The client side of TestFidRecycle, run against the embedded proxy:
each round opens a file (walk to a fresh fid plus open), clunks it in
the background, re-opens while the proxy has read the Tclunk but the
delayed back-end has not yet answered, and counts "duplicate fid"
rejections.  The client allocates fids through the modelled lifecycle
manager, confirming retirement only when the Rclunk arrives. -/

structure Sim where
  mgr : FidMgr := {}
  prx : ProxyState := {}
  tagctr : Nat := 0
  dup : Nat := 0
  root : Nat := 0
deriving Repr, DecidableEq

/-- Version handshake and attach, as NewConn plus Attach perform them. -/
def simInit : Sim :=
  let prx0 := proxyStep {} (.recv { ftype := Tversion, tag := NOTAG, msize := 131072 })
  let a := FidMgr.allocate {}
  let prx1 := proxyStep prx0 (.recv { ftype := Tattach, tag := 0, fid := a.1 })
  { mgr := a.2.markActive a.1, prx := prx1, tagctr := 1, dup := 0, root := a.1 }

def isDupReply (l : List Fcall) : Bool :=
  l.any (fun r => r.ftype = Rerror && r.ename = "duplicate fid")

/-- fs.Open: allocate a fid, walk to it from the root, then open it.
Returns the chosen fid number.  On a "duplicate fid" rejection the
test's client counts the error and the walk's fid, never having been
established at the server, is freed at once. -/
def openFile (s : Sim) : Nat × Sim :=
  let a := s.mgr.allocate
  let f := a.1
  let t := s.tagctr
  let prx1 := proxyStep s.prx
    (.recv { ftype := Twalk, tag := t, fid := s.root, newfid := f, wname := ["file"] })
  let reply := prx1.sent.drop s.prx.sent.length
  if isDupReply reply then
    (f, { mgr := a.2.freeOnFailure f, prx := prx1, tagctr := t + 1, dup := s.dup + 1, root := s.root })
  else
    let prx2 := proxyStep prx1 (.recv { ftype := Topen, tag := t + 1, fid := f })
    (f, { mgr := (a.2.markActive f), prx := prx2, tagctr := t + 2, dup := s.dup, root := s.root })

/-- One round of TestFidRecycle: open, clunk in the background, re-open
while the first fid is still in the proxy's table, then let both delayed
acknowledgments arrive and confirm both retirements. -/
def round (s : Sim) : Sim :=
  let o1 := openFile s
  let f1 := o1.1
  let s1 := o1.2
  let t1 := s1.tagctr
  let s2 : Sim :=
    { mgr := s1.mgr.beginRetire f1
      prx := proxyStep s1.prx (.recv { ftype := Tclunk, tag := t1, fid := f1 })
      tagctr := t1 + 1, dup := s1.dup, root := s1.root }
  let o2 := openFile s2
  let f2 := o2.1
  let s3 := o2.2
  let t2 := s3.tagctr
  let s4 : Sim :=
    { mgr := s3.mgr.beginRetire f2
      prx := proxyStep s3.prx (.recv { ftype := Tclunk, tag := t2, fid := f2 })
      tagctr := t2 + 1, dup := s3.dup, root := s3.root }
  let s5 : Sim :=
    { mgr := s4.mgr.confirmRetire f1
      prx := proxyStep s4.prx (.fire t1 f1)
      tagctr := s4.tagctr, dup := s4.dup, root := s4.root }
  { mgr := s5.mgr.confirmRetire f2
    prx := proxyStep s5.prx (.fire t2 f2)
    tagctr := s5.tagctr, dup := s5.dup, root := s5.root }

def simRun : Nat → Sim
  | 0 => simInit
  | n + 1 => round (simRun n)

/-! ## Message Codec

Modelled from the spec: the Message Codec (spec sections 4.1 and 6) is
not among the visible source files, so it is embedded from the spec's
words: each message is a length-prefixed record carrying a total
length, a type discriminant, a tag and type-specific fields; decoding
rejects a truncated record, an unknown type discriminant, and a record
whose declared length does not match the consumed bytes.  The
type-specific fields are kept as the raw byte payload, which the
framing layer carries opaquely. -/

structure WireMsg where
  mtype : Nat
  tag : Nat
  body : List Nat
deriving Repr, DecidableEq

/-- Known type discriminants: the closed message set of the spec's
interface table. -/
def knownType (t : Nat) : Bool :=
  t ∈ [Tversion, Rversion, Tattach, Rattach, Rerror, Twalk, Rwalk,
       Topen, Ropen, Tclunk, Rclunk]

def le32enc (n : Nat) : List Nat :=
  [n % 256, n / 256 % 256, n / 65536 % 256, n / 16777216 % 256]

def le16enc (n : Nat) : List Nat :=
  [n % 256, n / 256 % 256]

/-- Frame a message: 4-byte little-endian total length, one type byte,
2-byte little-endian tag, then the payload. -/
def encode (m : WireMsg) : List Nat :=
  le32enc (7 + m.body.length) ++ m.mtype :: le16enc m.tag ++ m.body

/-- Unframe one record; rejects truncation, an unknown discriminant and
a length field disagreeing with the bytes consumed. -/
def decode (bs : List Nat) : Option WireMsg :=
  match bs with
  | a :: b :: c :: d :: t :: t1 :: t2 :: body =>
    if (a + 256 * b + 65536 * c + 16777216 * d = 7 + body.length) ∧ knownType t then
      some { mtype := t, tag := t1 + 256 * t2, body := body }
    else
      none
  | _ => none

/-! ## acme Mount, non-Plan 9 build (src/acme/acme_p9p.go)

MountService itself is an excluded collaborator; it is modelled as an
oracle giving the outcome of each successive dial, with an explicit
call counter, so that "dials exactly once" is expressible. -/

structure CFsys where
  id : Nat
deriving Repr, DecidableEq

structure Fsys where
  fs : CFsys
deriving Repr, DecidableEq

structure Dialer where
  outcome : Nat → Except String CFsys

structure DialSt where
  calls : Nat
deriving Repr, DecidableEq

/-- One invocation of client.MountService: consumes the next oracle
outcome and bumps the call counter. -/
def mountService (d : Dialer) (s : DialSt) : Except String CFsys × DialSt :=
  (d.outcome s.calls, { calls := s.calls + 1 })

namespace AcmeP9p

/-- Mount from src/acme/acme_p9p.go: dial once via MountService; on
error return (nil, err); on success wrap the fresh connection. -/
def Mount (d : Dialer) (s : DialSt) : (Option Fsys × Option String) × DialSt :=
  let r := mountService d s
  match r.1 with
  | .error e => ((none, some e), r.2)
  | .ok fs => ((some { fs := fs }, none), r.2)

end AcmeP9p

/-! ## acme Mount, Plan 9 build (src/acme/acme_plan9.go) -/

structure CFsys9 where
  mtpt : String
deriving Repr, DecidableEq

structure Fsys9 where
  fs : CFsys9
deriving Repr, DecidableEq

structure AcmeSt where
  onceDone : Bool := false
  defaultFsys : Option Fsys9 := none
deriving Repr, DecidableEq

namespace AcmePlan9

/-- mountAcme from src/acme/acme_plan9.go: set the default Fsys to the
namespace mount point /mnt/acme. -/
def mountAcme (st : AcmeSt) : AcmeSt :=
  { st with defaultFsys := some { fs := { mtpt := "/mnt/acme" } } }

/-- Mount from src/acme/acme_plan9.go: defaultOnce.Do(mountAcme) then
return (defaultFsys, nil). -/
def Mount (st : AcmeSt) : (Option Fsys9 × Option String) × AcmeSt :=
  let st1 := if st.onceDone then st else { mountAcme st with onceDone := true }
  ((st1.defaultFsys, none), st1)

end AcmePlan9

/-- States the package-level acme state can be in: the zero state, or
whatever repeated Mount calls produce from it. -/
inductive ReachAcme : AcmeSt → Prop where
  | init : ReachAcme {}
  | step (st : AcmeSt) : ReachAcme st → ReachAcme (AcmePlan9.Mount st).2

/-! ## Helper lemmas about the proxy model -/

theorem stepReplies_of_sent_eq {st : ProxyState} {e : Ev} {l : List Fcall}
    (h : (proxyStep st e).sent = st.sent ++ l) : stepReplies st e = l := by
  rw [stepReplies, h, List.drop_left]

theorem proxyStep_waitVersion {st : ProxyState} (f : Fcall)
    (hp : st.phase = .waitVersion) :
    proxyStep st (.recv f) =
      { st with phase := .waitAttach, sent := st.sent ++ [rversionResp f] } := by
  simp [proxyStep, hp]

theorem proxyStep_waitAttach {st : ProxyState} (f : Fcall)
    (hp : st.phase = .waitAttach) :
    proxyStep st (.recv f) =
      { st with
        phase := .loop
        fids := insertFid st.fids f.fid
        sent := st.sent ++ [rattachResp f] } := by
  simp [proxyStep, hp]

theorem proxyStep_walk_dup {st : ProxyState} {f : Fcall}
    (hp : st.phase = .loop) (ht : f.ftype = Twalk)
    (hd : f.newfid ∈ st.fids ∧ f.newfid ≠ f.fid) :
    proxyStep st (.recv f) =
      { st with sent := st.sent ++ [rerrorResp (f.tag) "duplicate fid"] } := by
  simp [proxyStep, hp, ht, hd]

theorem proxyStep_walk_ok {st : ProxyState} {f : Fcall}
    (hp : st.phase = .loop) (ht : f.ftype = Twalk)
    (hd : ¬(f.newfid ∈ st.fids ∧ f.newfid ≠ f.fid)) :
    proxyStep st (.recv f) =
      { st with
        fids := insertFid st.fids f.newfid
        sent := st.sent ++ [rwalkResp f] } := by
  simp [proxyStep, hp, ht, hd]

theorem proxyStep_clunk {st : ProxyState} {f : Fcall}
    (hp : st.phase = .loop) (ht : f.ftype = Tclunk) :
    proxyStep st (.recv f) =
      { st with pending := st.pending ++ [(f.tag, f.fid)] } := by
  simp [proxyStep, hp, ht, Twalk, Topen, Tclunk]

theorem proxyStep_default {st : ProxyState} {f : Fcall}
    (hp : st.phase = .loop) (h1 : f.ftype ≠ Twalk) (h2 : f.ftype ≠ Topen)
    (h3 : f.ftype ≠ Tclunk) :
    proxyStep st (.recv f) =
      { st with sent := st.sent ++ [rerrorResp (f.tag) "not supported"] } := by
  simp [proxyStep, hp, h1, h2, h3]

theorem proxyStep_fire_pending {st : ProxyState} {t fd : Nat}
    (h : (t, fd) ∈ st.pending) :
    proxyStep st (.fire t fd) =
      { st with
        fids := st.fids.filter (fun n => n ≠ fd)
        pending := st.pending.eraseP (fun p => p = (t, fd))
        sent := st.sent ++ [{ ftype := Rclunk, tag := t }] } := by
  simp [proxyStep, h]

/-- A fid in the table survives every event except the firing of a
delayed clunk aimed at that very fid. -/
theorem fid_survives_step {F : Nat} {e : Ev}
    (he : ∀ t2, e ≠ Ev.fire t2 F) :
    ∀ st : ProxyState, F ∈ st.fids → F ∈ (proxyStep st e).fids := by
  intro st hF
  cases e with
  | recv f =>
    cases hp : st.phase with
    | waitVersion => simpa [proxyStep, hp] using hF
    | waitAttach =>
      simp only [proxyStep, hp]
      unfold insertFid
      split <;> simp [hF]
    | loop =>
      simp only [proxyStep, hp]
      split
      · split
        · simpa using hF
        · simp only
          unfold insertFid
          split <;> simp [hF]
      · split
        · simpa using hF
        · split <;> simpa using hF
  | fire t2 fd =>
    have hfd : fd ≠ F := by
      intro h
      exact he t2 (by rw [h])
    simp only [proxyStep]
    split
    · simp only [List.mem_filter]
      exact ⟨hF, by simp [Ne.symm hfd]⟩
    · exact hF

theorem fid_survives_run {F : Nat} (evs : List Ev)
    (he : ∀ e ∈ evs, ∀ t2, e ≠ Ev.fire t2 F) :
    ∀ st : ProxyState, F ∈ st.fids → F ∈ (proxyRun evs st).fids := by
  induction evs with
  | nil => intro st hF; exact hF
  | cons e rest ih =>
    intro st hF
    have h1 : F ∈ (proxyStep st e).fids :=
      fid_survives_step (he e (List.mem_cons_self e rest)) st hF
    exact ih (fun x hx t2 => he x (List.mem_cons_of_mem e hx) t2) _ h1

/-- The first entry of the response trace never changes once written. -/
theorem sent_head_stable (evs : List Ev) :
    ∀ (st : ProxyState) (r : Fcall) (rest : List Fcall),
      st.sent = r :: rest → (proxyRun evs st).sent.head? = some r := by
  induction evs with
  | nil => intro st r rest h; simp [proxyRun, h]
  | cons e tail ih =>
    intro st r rest h
    have hmono : ∃ l, (proxyStep st e).sent = st.sent ++ l := by
      cases e with
      | recv f =>
        cases hp : st.phase with
        | waitVersion => exact ⟨[rversionResp f], by simp [proxyStep, hp]⟩
        | waitAttach => exact ⟨[rattachResp f], by simp [proxyStep, hp]⟩
        | loop =>
          simp only [proxyStep, hp]
          split
          · split
            · exact ⟨_, rfl⟩
            · exact ⟨_, rfl⟩
          · split
            · exact ⟨_, rfl⟩
            · split
              · exact ⟨[], by simp⟩
              · exact ⟨_, rfl⟩
      | fire t fd =>
        simp only [proxyStep]
        split
        · exact ⟨_, rfl⟩
        · exact ⟨[], by simp⟩
    obtain ⟨l, hl⟩ := hmono
    exact ih (proxyStep st e) r (rest ++ l) (by rw [hl, h]; rfl)

/-! ## Claim theorems about the proxy server -/

/-- C3.  Duplicate-fid rule for walk: for every Twalk request the proxy
receives, it replies with an Rerror carrying Ename "duplicate fid" if
and only if the request's newfid is currently live in the table and
newfid differs from the source fid; otherwise it marks newfid live and
replies with a successful Rwalk. -/
theorem walk_duplicate_fid_rule (st : ProxyState) (f : Fcall)
    (hp : st.phase = Phase.loop) (ht : f.ftype = Twalk) :
    (f.newfid ∈ st.fids ∧ f.newfid ≠ f.fid →
      stepReplies st (.recv f) = [rerrorResp (f.tag) "duplicate fid"] ∧
      (proxyStep st (.recv f)).fids = st.fids) ∧
    (¬(f.newfid ∈ st.fids ∧ f.newfid ≠ f.fid) →
      stepReplies st (.recv f) = [rwalkResp f] ∧
      (rwalkResp f).ftype = Rwalk ∧
      f.newfid ∈ (proxyStep st (.recv f)).fids) := by
  constructor
  · intro hd
    refine ⟨stepReplies_of_sent_eq ?_, ?_⟩
    · rw [proxyStep_walk_dup hp ht hd]
    · rw [proxyStep_walk_dup hp ht hd]
  · intro hd
    refine ⟨stepReplies_of_sent_eq ?_, rfl, ?_⟩
    · rw [proxyStep_walk_ok hp ht hd]
    · rw [proxyStep_walk_ok hp ht hd]
      unfold insertFid
      split
      · assumption
      · exact List.mem_cons_self _ _

theorem walk_duplicate_fid_rule_witness :
    (({ phase := Phase.loop, fids := [3] } : ProxyState).phase = Phase.loop ∧
      ({ ftype := Twalk, tag := 9, fid := 0, newfid := 3 } : Fcall).ftype = Twalk) ∧
    stepReplies { phase := Phase.loop, fids := [3] }
        (.recv { ftype := Twalk, tag := 9, fid := 0, newfid := 3 }) =
      [rerrorResp 9 "duplicate fid"] := by
  refine ⟨⟨rfl, rfl⟩, ?_⟩
  have h := walk_duplicate_fid_rule { phase := Phase.loop, fids := [3] }
    { ftype := Twalk, tag := 9, fid := 0, newfid := 3 } rfl rfl
  exact (h.1 (by decide)).1

/-- C5.  Walk response shape: for every Twalk the proxy accepts
(non-duplicate newfid), the Rwalk response carries one qid per walked
name: its wqid sequence has the same length as the request's wname
sequence. -/
theorem walk_response_shape (st : ProxyState) (f : Fcall)
    (hp : st.phase = Phase.loop) (ht : f.ftype = Twalk)
    (hd : ¬(f.newfid ∈ st.fids ∧ f.newfid ≠ f.fid)) :
    stepReplies st (.recv f) = [rwalkResp f] ∧
    (rwalkResp f).wqid.length = f.wname.length := by
  refine ⟨stepReplies_of_sent_eq ?_, ?_⟩
  · rw [proxyStep_walk_ok hp ht hd]
  · simp [rwalkResp]

theorem walk_response_shape_witness :
    stepReplies { phase := Phase.loop, fids := [0] }
        (.recv { ftype := Twalk, tag := 4, fid := 0, newfid := 1,
                 wname := ["file", "sub"] }) =
      [rwalkResp { ftype := Twalk, tag := 4, fid := 0, newfid := 1,
                   wname := ["file", "sub"] }] ∧
    (rwalkResp { ftype := Twalk, tag := 4, fid := 0, newfid := 1,
                 wname := ["file", "sub"] }).wqid.length = 2 :=
  walk_response_shape { phase := Phase.loop, fids := [0] }
    { ftype := Twalk, tag := 4, fid := 0, newfid := 1, wname := ["file", "sub"] }
    rfl rfl (by decide)

/-- C7.  Version handshake: the first message the proxy sends on a
connection is an Rversion response with the reserved NOTAG tag, whose
msize echoes the client's Tversion msize and whose version string is
"9P2000" — whatever traffic follows. -/
theorem version_handshake_first (f : Fcall) (evs : List Ev) :
    (proxyRun (Ev.recv f :: evs)).sent.head? = some (rversionResp f) ∧
    (rversionResp f).ftype = Rversion ∧ (rversionResp f).tag = NOTAG ∧
    (rversionResp f).msize = f.msize ∧ (rversionResp f).version = "9P2000" := by
  refine ⟨?_, rfl, rfl, rfl, rfl⟩
  have h0 : (proxyStep {} (.recv f)).sent = rversionResp f :: [] := by
    simp [proxyStep]
  have : proxyRun (Ev.recv f :: evs) = proxyRun evs (proxyStep {} (.recv f)) := rfl
  rw [this]
  exact sent_head_stable evs _ _ _ h0

/-- C9.  Requests read in the serve loop whose type is none of Twalk,
Topen, Tclunk are answered with an Rerror carrying the request's tag
and the message "not supported", and the live-fid table is unchanged. -/
theorem unsupported_request_rejected (st : ProxyState) (f : Fcall)
    (hp : st.phase = Phase.loop) (h1 : f.ftype ≠ Twalk) (h2 : f.ftype ≠ Topen)
    (h3 : f.ftype ≠ Tclunk) :
    stepReplies st (.recv f) = [rerrorResp (f.tag) "not supported"] ∧
    (proxyStep st (.recv f)).fids = st.fids ∧
    (proxyStep st (.recv f)).pending = st.pending := by
  refine ⟨stepReplies_of_sent_eq ?_, ?_, ?_⟩ <;>
    rw [proxyStep_default hp h1 h2 h3]

theorem unsupported_request_rejected_witness :
    stepReplies { phase := Phase.loop, fids := [0] }
        (.recv { ftype := 116, tag := 2, fid := 0 }) =
      [rerrorResp 2 "not supported"] ∧
    (proxyStep { phase := Phase.loop, fids := [0] }
        (.recv { ftype := 116, tag := 2, fid := 0 })).fids = [0] := by
  have h := unsupported_request_rejected { phase := Phase.loop, fids := [0] }
    { ftype := 116, tag := 2, fid := 0 } rfl (by decide) (by decide) (by decide)
  exact ⟨h.1, h.2.1⟩

/-- C4.  Tag preservation: every reply the proxy emits for a request
read after the version handshake carries exactly the request's tag; a
delayed clunk acknowledgment carries exactly the tag remembered for it,
and reading a Tclunk remembers exactly the request's tag with its
fid. -/
theorem response_tag_matches_request (st : ProxyState) (f : Fcall)
    (t fd : Nat) :
    (st.phase ≠ Phase.waitVersion →
      ∀ r ∈ stepReplies st (.recv f), r.tag = f.tag) ∧
    (∀ r ∈ stepReplies st (.fire t fd), r.tag = t) ∧
    (st.phase = Phase.loop → f.ftype = Tclunk →
      (proxyStep st (.recv f)).pending = st.pending ++ [(f.tag, f.fid)]) := by
  refine ⟨?_, ?_, ?_⟩
  · intro hph r hr
    cases hp : st.phase with
    | waitVersion => exact absurd hp hph
    | waitAttach =>
      have hsent : (proxyStep st (.recv f)).sent =
          st.sent ++ [rattachResp f] := by rw [proxyStep_waitAttach f hp]
      have := stepReplies_of_sent_eq hsent
      rw [this] at hr
      simp at hr
      rw [hr]; rfl
    | loop =>
      by_cases h1 : f.ftype = Twalk
      · by_cases hd : f.newfid ∈ st.fids ∧ f.newfid ≠ f.fid
        · have hsent : (proxyStep st (.recv f)).sent =
              st.sent ++ [rerrorResp (f.tag) "duplicate fid"] := by
            rw [proxyStep_walk_dup hp h1 hd]
          have := stepReplies_of_sent_eq hsent
          rw [this] at hr
          simp at hr
          rw [hr]; rfl
        · have hsent : (proxyStep st (.recv f)).sent =
              st.sent ++ [rwalkResp f] := by rw [proxyStep_walk_ok hp h1 hd]
          have := stepReplies_of_sent_eq hsent
          rw [this] at hr
          simp at hr
          rw [hr]; rfl
      · by_cases h2 : f.ftype = Topen
        · have hstep : proxyStep st (.recv f) =
              { st with sent := st.sent ++
                  [{ ftype := Ropen, tag := f.tag
                     qid := { qtype := QTFILE, path := 1 } }] } := by
            simp [proxyStep, hp, h2, Twalk, Topen]
          have hsent : (proxyStep st (.recv f)).sent =
              st.sent ++ [{ ftype := Ropen, tag := f.tag
                            qid := { qtype := QTFILE, path := 1 } }] := by
            rw [hstep]
          have := stepReplies_of_sent_eq hsent
          rw [this] at hr
          simp at hr
          rw [hr]
        · by_cases h3 : f.ftype = Tclunk
          · have hsent : (proxyStep st (.recv f)).sent = st.sent ++ [] := by
              rw [proxyStep_clunk hp h3]; simp
            have := stepReplies_of_sent_eq hsent
            rw [this] at hr
            simp at hr
          · have hsent : (proxyStep st (.recv f)).sent =
                st.sent ++ [rerrorResp (f.tag) "not supported"] := by
              rw [proxyStep_default hp h1 h2 h3]
            have := stepReplies_of_sent_eq hsent
            rw [this] at hr
            simp at hr
            rw [hr]; rfl
  · intro r hr
    by_cases h : (t, fd) ∈ st.pending
    · have hsent : (proxyStep st (.fire t fd)).sent =
          st.sent ++ [{ ftype := Rclunk, tag := t }] := by
        rw [proxyStep_fire_pending h]
      have := stepReplies_of_sent_eq hsent
      rw [this] at hr
      simp at hr
      rw [hr]
    · have hstep : proxyStep st (.fire t fd) = st := by simp [proxyStep, h]
      have hsent : (proxyStep st (.fire t fd)).sent = st.sent ++ [] := by
        rw [hstep]; simp
      have := stepReplies_of_sent_eq hsent
      rw [this] at hr
      simp at hr
  · intro hp h3
    rw [proxyStep_clunk hp h3]

theorem response_tag_matches_request_witness :
    (({ phase := Phase.loop, fids := [0] } : ProxyState).phase ≠
      Phase.waitVersion) ∧
    (∀ r ∈ stepReplies { phase := Phase.loop, fids := [0] }
        (.recv { ftype := Topen, tag := 6, fid := 0 }), r.tag = 6) := by
  refine ⟨by decide, ?_⟩
  have h := response_tag_matches_request { phase := Phase.loop, fids := [0] }
    { ftype := Topen, tag := 6, fid := 0 } 0 0
  exact h.1 (by decide)

/-- C2.  Delayed retirement acknowledgment: reading a Tclunk(F) sends
nothing and leaves F in the live-fid table, recording the clunk's tag
and fid; F stays in the table across every later event until the
delayed back-end reply fires for F (the 5ms clunkDelay is modelled as
that fire happening at an arbitrary later point); and the firing step
deletes F from the table and appends the Rclunk in the same atomic
step, so the table still listed F at every state before the Rclunk was
emitted. -/
theorem clunk_ack_delayed (st st2 : ProxyState) (f : Fcall) (evs : List Ev)
    (t : Nat) (hp : st.phase = Phase.loop) (ht : f.ftype = Tclunk) :
    stepReplies st (.recv f) = [] ∧
    (proxyStep st (.recv f)).fids = st.fids ∧
    (proxyStep st (.recv f)).pending = st.pending ++ [(f.tag, f.fid)] ∧
    (f.fid ∈ st.fids → (∀ e ∈ evs, ∀ t2, e ≠ Ev.fire t2 f.fid) →
      f.fid ∈ (proxyRun evs (proxyStep st (.recv f))).fids) ∧
    ((t, f.fid) ∈ st2.pending →
      f.fid ∉ (proxyStep st2 (.fire t f.fid)).fids ∧
      stepReplies st2 (.fire t f.fid) = [{ ftype := Rclunk, tag := t }]) := by
  refine ⟨?_, ?_, ?_, ?_, ?_⟩
  · exact stepReplies_of_sent_eq (by rw [proxyStep_clunk hp ht]; simp)
  · rw [proxyStep_clunk hp ht]
  · rw [proxyStep_clunk hp ht]
  · intro hF he
    have h1 : f.fid ∈ (proxyStep st (.recv f)).fids := by
      rw [proxyStep_clunk hp ht]; exact hF
    exact fid_survives_run evs he _ h1
  · intro hpend
    constructor
    · rw [proxyStep_fire_pending hpend]
      simp
    · exact stepReplies_of_sent_eq (by rw [proxyStep_fire_pending hpend])

theorem clunk_ack_delayed_witness :
    (({ phase := Phase.loop, fids := [0, 1] } : ProxyState).phase =
      Phase.loop ∧
      ({ ftype := Tclunk, tag := 8, fid := 1 } : Fcall).ftype = Tclunk ∧
      (1 : Nat) ∈ ({ phase := Phase.loop, fids := [0, 1] } : ProxyState).fids) ∧
    (1 : Nat) ∈ (proxyRun [Ev.recv { ftype := Topen, tag := 9, fid := 0 }]
      (proxyStep { phase := Phase.loop, fids := [0, 1] }
        (.recv { ftype := Tclunk, tag := 8, fid := 1 }))).fids := by
  refine ⟨⟨rfl, rfl, by decide⟩, ?_⟩
  have h := clunk_ack_delayed { phase := Phase.loop, fids := [0, 1] }
    { phase := Phase.loop } { ftype := Tclunk, tag := 8, fid := 1 }
    [Ev.recv { ftype := Topen, tag := 9, fid := 0 }] 8 rfl rfl
  refine h.2.2.2.1 (by decide) ?_
  intro e he t2
  rw [List.mem_singleton] at he
  subst he
  exact fun hc => Ev.noConfusion hc
/-! ## Helper lemmas about the fid lifecycle manager -/

theorem stateOf_setSt (m : FidMgr) (n k : Nat) (s : FidState) :
    (m.setSt n s).stateOf k = if k = n then s else m.stateOf k := by
  cases hbeq : k == n with
  | false =>
    have h : ¬k = n := by simpa using hbeq
    simp [FidMgr.stateOf, FidMgr.setSt, List.lookup_cons, hbeq, h]
  | true =>
    have h : k = n := by simpa using hbeq
    simp [FidMgr.stateOf, FidMgr.setSt, List.lookup_cons, hbeq, h]

theorem allocate_of_nil {m : FidMgr} (hf : m.freefid = []) :
    m.allocate =
      (m.next, { m with tbl := (m.next, FidState.allocated) :: m.tbl, next := m.next + 1 }) := by
  unfold FidMgr.allocate
  rw [hf]
  simp [FidMgr.setSt, hf]

theorem allocate_of_cons {m : FidMgr} {n0 : Nat} {rest : List Nat}
    (hf : m.freefid = n0 :: rest) :
    m.allocate =
      (n0, { m with tbl := (n0, FidState.allocated) :: m.tbl, freefid := rest }) := by
  unfold FidMgr.allocate
  rw [hf]
  rfl

theorem Wf_init : Wf ({} : FidMgr) := by
  refine ⟨?_, List.nodup_nil, ?_⟩
  · intro n hn
    exact absurd hn (List.not_mem_nil n)
  · intro n _
    rfl

theorem Wf_fstep {m : FidMgr} (h : Wf m) (op : FOp) : Wf (fstep m op) := by
  obtain ⟨hfree, hnd, hnext⟩ := h
  cases op with
  | alloc =>
    show Wf (m.allocate).2
    rcases hf : m.freefid with _ | ⟨n0, rest⟩
    · rw [allocate_of_nil hf]
      refine ⟨?_, ?_, ?_⟩
      · intro n hn
        have hn2 : n ∈ m.freefid := hn
        rw [hf] at hn2
        exact absurd hn2 (List.not_mem_nil n)
      · show List.Nodup m.freefid
        exact hnd
      · intro n hn
        have hn2 : m.next + 1 ≤ n := hn
        have heq : ({ m with tbl := (m.next, FidState.allocated) :: m.tbl, next := m.next + 1 } : FidMgr).stateOf n = (m.setSt m.next FidState.allocated).stateOf n := rfl
        rw [heq, stateOf_setSt]
        have hne : n ≠ m.next := by omega
        rw [if_neg hne]
        exact hnext n (by omega)
    · have hnd0 : n0 ∉ rest ∧ rest.Nodup := by
        rw [hf] at hnd
        exact List.nodup_cons.mp hnd
      have hn0free : m.stateOf n0 = FidState.free :=
        hfree n0 (by rw [hf]; exact List.mem_cons_self _ _)
      rw [allocate_of_cons hf]
      refine ⟨?_, ?_, ?_⟩
      · intro k hk
        have hk2 : k ∈ rest := hk
        have hkne : k ≠ n0 := by
          intro hkeq
          rw [hkeq] at hk2
          exact hnd0.1 hk2
        have heq : ({ m with tbl := (n0, FidState.allocated) :: m.tbl, freefid := rest } : FidMgr).stateOf k = (m.setSt n0 FidState.allocated).stateOf k := rfl
        rw [heq, stateOf_setSt, if_neg hkne]
        exact hfree k (by rw [hf]; exact List.mem_cons_of_mem _ hk2)
      · show List.Nodup rest
        exact hnd0.2
      · intro k hk
        have hk2 : m.next ≤ k := hk
        have hn0lt : n0 < m.next := by
          by_contra hge
          have := hnext n0 (by omega)
          rw [this] at hn0free
          exact FidState.noConfusion hn0free
        have hkne : k ≠ n0 := by omega
        have heq : ({ m with tbl := (n0, FidState.allocated) :: m.tbl, freefid := rest } : FidMgr).stateOf k = (m.setSt n0 FidState.allocated).stateOf k := rfl
        rw [heq, stateOf_setSt, if_neg hkne]
        exact hnext k hk2
  | markActive n =>
    show Wf (m.markActive n)
    unfold FidMgr.markActive
    split
    · have hs : m.stateOf n = FidState.allocated := by assumption
      refine ⟨?_, hnd, ?_⟩
      · intro k hk
        have hk2 : k ∈ m.freefid := hk
        rw [stateOf_setSt]
        have hkne : k ≠ n := by
          intro hkeq
          have hkf := hfree k hk2
          rw [hkeq] at hkf
          rw [hkf] at hs
          exact FidState.noConfusion hs
        rw [if_neg hkne]
        exact hfree k hk2
      · intro k hk
        have hk2 : m.next ≤ k := hk
        rw [stateOf_setSt]
        have hkne : k ≠ n := by
          intro hkeq
          have hku := hnext k hk2
          rw [hkeq] at hku
          rw [hku] at hs
          exact FidState.noConfusion hs
        rw [if_neg hkne]
        exact hnext k hk2
    · exact ⟨hfree, hnd, hnext⟩
  | beginRetire n =>
    show Wf (m.beginRetire n)
    unfold FidMgr.beginRetire
    split
    · have hs : m.stateOf n = FidState.active := by assumption
      refine ⟨?_, hnd, ?_⟩
      · intro k hk
        have hk2 : k ∈ m.freefid := hk
        rw [stateOf_setSt]
        have hkne : k ≠ n := by
          intro hkeq
          have hkf := hfree k hk2
          rw [hkeq] at hkf
          rw [hkf] at hs
          exact FidState.noConfusion hs
        rw [if_neg hkne]
        exact hfree k hk2
      · intro k hk
        have hk2 : m.next ≤ k := hk
        rw [stateOf_setSt]
        have hkne : k ≠ n := by
          intro hkeq
          have hku := hnext k hk2
          rw [hkeq] at hku
          rw [hku] at hs
          exact FidState.noConfusion hs
        rw [if_neg hkne]
        exact hnext k hk2
    · exact ⟨hfree, hnd, hnext⟩
  | confirmRetire n =>
    show Wf (m.confirmRetire n)
    unfold FidMgr.confirmRetire
    split
    · have hs : m.stateOf n = FidState.retiring := by assumption
      have hnin : n ∉ m.freefid := by
        intro hn
        have hkf := hfree n hn
        rw [hkf] at hs
        exact FidState.noConfusion hs
      refine ⟨?_, ?_, ?_⟩
      · intro k hk
        have hk2 : k ∈ m.freefid ++ [n] := hk
        have heq : ({ m.setSt n FidState.free with freefid := m.freefid ++ [n] } : FidMgr).stateOf k = (m.setSt n FidState.free).stateOf k := rfl
        rw [heq, stateOf_setSt]
        by_cases hkeq : k = n
        · rw [if_pos hkeq]
        · rw [if_neg hkeq]
          have hk3 : k ∈ m.freefid := by
            rcases List.mem_append.mp hk2 with hka | hkb
            · exact hka
            · exact absurd (List.mem_singleton.mp hkb) hkeq
          exact hfree k hk3
      · show List.Nodup (m.freefid ++ [n])
        exact List.nodup_append.mpr
          ⟨hnd, List.nodup_singleton n, by
            intro a ha hb
            rw [List.mem_singleton] at hb
            exact hnin (hb ▸ ha)⟩
      · intro k hk
        have hk2 : m.next ≤ k := hk
        have heq : ({ m.setSt n FidState.free with freefid := m.freefid ++ [n] } : FidMgr).stateOf k = (m.setSt n FidState.free).stateOf k := rfl
        rw [heq, stateOf_setSt]
        have hkne : k ≠ n := by
          intro hkeq
          have hku := hnext k hk2
          rw [hkeq] at hku
          rw [hku] at hs
          exact FidState.noConfusion hs
        rw [if_neg hkne]
        exact hnext k hk2
    · exact ⟨hfree, hnd, hnext⟩

theorem Wf_runF (l : List FOp) : Wf (runF l) := by
  suffices h : ∀ m : FidMgr, Wf m → Wf (l.foldl fstep m) from h {} Wf_init
  induction l with
  | nil => intro m hm; exact hm
  | cons op rest ih =>
    intro m hm
    exact ih (fstep m op) (Wf_fstep hm op)

/-- Allocate hands out its returned number in state allocated. -/
theorem alloc_sets_allocated (m : FidMgr) :
    ((m.allocate).2).stateOf (allocFid m) = FidState.allocated := by
  unfold allocFid
  rcases hf : m.freefid with _ | ⟨n0, rest⟩
  · rw [allocate_of_nil hf]
    have heq : ({ m with tbl := (m.next, FidState.allocated) :: m.tbl, next := m.next + 1 } : FidMgr).stateOf m.next = (m.setSt m.next FidState.allocated).stateOf m.next := rfl
    show ({ m with tbl := (m.next, FidState.allocated) :: m.tbl, next := m.next + 1 } : FidMgr).stateOf m.next = FidState.allocated
    rw [heq, stateOf_setSt, if_pos rfl]
  · rw [allocate_of_cons hf]
    have heq : ({ m with tbl := (n0, FidState.allocated) :: m.tbl, freefid := rest } : FidMgr).stateOf n0 = (m.setSt n0 FidState.allocated).stateOf n0 := rfl
    show ({ m with tbl := (n0, FidState.allocated) :: m.tbl, freefid := rest } : FidMgr).stateOf n0 = FidState.allocated
    rw [heq, stateOf_setSt, if_pos rfl]

/-- A well-formed manager never hands out a live number. -/
theorem allocFid_not_live {m : FidMgr} (h : Wf m) : ¬ Live m (allocFid m) := by
  obtain ⟨hfree, _, hnext⟩ := h
  unfold allocFid
  rcases hf : m.freefid with _ | ⟨n0, rest⟩
  · rw [allocate_of_nil hf]
    show ¬ Live m m.next
    have := hnext m.next (le_refl _)
    unfold Live
    rw [this]
    rintro (hc | hc | hc) <;> exact FidState.noConfusion hc
  · rw [allocate_of_cons hf]
    show ¬ Live m n0
    have := hfree n0 (by rw [hf]; exact List.mem_cons_self _ _)
    unfold Live
    rw [this]
    rintro (hc | hc | hc) <;> exact FidState.noConfusion hc

/-- Liveness of a number survives every operation except the
confirmation of that very number's retirement. -/
theorem live_fstep {m : FidMgr} {N : Nat} (hw : Wf m) (hl : Live m N)
    (op : FOp) (hop : op ≠ FOp.confirmRetire N) : Live (fstep m op) N := by
  cases op with
  | alloc =>
    show Live (m.allocate).2 N
    have hne : N ≠ allocFid m := by
      intro he
      exact allocFid_not_live hw (he ▸ hl)
    unfold allocFid at hne
    rcases hf : m.freefid with _ | ⟨n0, rest⟩
    · rw [allocate_of_nil hf]
      rw [allocate_of_nil hf] at hne
      have hne2 : N ≠ m.next := hne
      unfold Live at hl ⊢
      have heq : ({ m with tbl := (m.next, FidState.allocated) :: m.tbl, next := m.next + 1 } : FidMgr).stateOf N = (m.setSt m.next FidState.allocated).stateOf N := rfl
      rw [heq, stateOf_setSt, if_neg hne2]
      exact hl
    · rw [allocate_of_cons hf]
      rw [allocate_of_cons hf] at hne
      have hne2 : N ≠ n0 := hne
      unfold Live at hl ⊢
      have heq : ({ m with tbl := (n0, FidState.allocated) :: m.tbl, freefid := rest } : FidMgr).stateOf N = (m.setSt n0 FidState.allocated).stateOf N := rfl
      rw [heq, stateOf_setSt, if_neg hne2]
      exact hl
  | markActive n =>
    show Live (m.markActive n) N
    unfold FidMgr.markActive
    split
    · unfold Live
      rw [stateOf_setSt]
      by_cases he : N = n
      · rw [if_pos he]
        exact Or.inr (Or.inl rfl)
      · rw [if_neg he]
        exact hl
    · exact hl
  | beginRetire n =>
    show Live (m.beginRetire n) N
    unfold FidMgr.beginRetire
    split
    · unfold Live
      rw [stateOf_setSt]
      by_cases he : N = n
      · rw [if_pos he]
        exact Or.inr (Or.inr rfl)
      · rw [if_neg he]
        exact hl
    · exact hl
  | confirmRetire n =>
    show Live (m.confirmRetire n) N
    have hne : N ≠ n := fun he => hop (by rw [he])
    unfold FidMgr.confirmRetire
    split
    · unfold Live
      have heq : ({ m.setSt n FidState.free with freefid := m.freefid ++ [n] } : FidMgr).stateOf N = (m.setSt n FidState.free).stateOf N := rfl
      rw [heq, stateOf_setSt, if_neg hne]
      exact hl
    · exact hl

theorem live_run {N : Nat} (l : List FOp)
    (hops : ∀ op ∈ l, op ≠ FOp.confirmRetire N) :
    ∀ m : FidMgr, Wf m → Live m N → Live (l.foldl fstep m) N := by
  induction l with
  | nil => intro m _ hl; exact hl
  | cons op rest ih =>
    intro m hw hl
    exact ih (fun x hx => hops x (List.mem_cons_of_mem op hx)) (fstep m op)
      (Wf_fstep hw op)
      (live_fstep hw hl op (hops op (List.mem_cons_self op rest)))

set_option maxRecDepth 10000

/-- C1.  Fid non-reuse: in any sequence of allocate/retire operations
on one connection, if the manager hands out fid number N a second time
then a confirmRetire N — the delivery of the server's Rclunk for N's
most recent retirement, never the mere dispatch of the Tclunk — occurs
strictly between the two allocations; and in the regression scenario
(open, close in the background, re-open while the proxy still lists the
fid as live) zero "duplicate fid" rejections occur across 20
repetitions. -/
theorem fid_non_reuse :
    (∀ (l₁ l₂ : List FOp) (N : Nat),
      allocFid (runF l₁) = N →
      allocFid (runF (l₁ ++ FOp.alloc :: l₂)) = N →
      FOp.confirmRetire N ∈ l₂) ∧
    (simRun 20).dup = 0 := by
  constructor
  · intro l₁ l₂ N h1 h2
    by_contra hnc
    have hops : ∀ op ∈ l₂, op ≠ FOp.confirmRetire N :=
      fun op hop he => hnc (he ▸ hop)
    have hw1 : Wf (runF l₁) := Wf_runF l₁
    have hlive0 : Live (fstep (runF l₁) FOp.alloc) N := by
      have ha := alloc_sets_allocated (runF l₁)
      rw [h1] at ha
      exact Or.inl ha
    have hw2 : Wf (fstep (runF l₁) FOp.alloc) := Wf_fstep hw1 _
    have hrun : runF (l₁ ++ FOp.alloc :: l₂) =
        l₂.foldl fstep (fstep (runF l₁) FOp.alloc) := by
      unfold runF
      rw [List.foldl_append]
      rfl
    have hlive : Live (runF (l₁ ++ FOp.alloc :: l₂)) N := by
      rw [hrun]
      exact live_run l₂ hops _ hw2 hlive0
    have hnl := allocFid_not_live (Wf_runF (l₁ ++ FOp.alloc :: l₂))
    rw [h2] at hnl
    exact hnl hlive
  · decide

theorem fid_non_reuse_witness :
    allocFid (runF []) = 0 ∧
    allocFid (runF ([] ++ FOp.alloc ::
      [FOp.markActive 0, FOp.beginRetire 0, FOp.confirmRetire 0])) = 0 ∧
    FOp.confirmRetire 0 ∈
      [FOp.markActive 0, FOp.beginRetire 0, FOp.confirmRetire 0] := by
  refine ⟨by decide, by decide, ?_⟩
  exact fid_non_reuse.1 []
    [FOp.markActive 0, FOp.beginRetire 0, FOp.confirmRetire 0] 0
    (by decide) (by decide)

/-! ## Claim theorems about the codec and Mount -/

theorem le32enc_le32val (a b c d : Nat) (ha : a < 256) (hb : b < 256)
    (hc : c < 256) (hd : d < 256) :
    le32enc (a + 256 * b + 65536 * c + 16777216 * d) = [a, b, c, d] := by
  unfold le32enc
  have h1 : (a + 256 * b + 65536 * c + 16777216 * d) % 256 = a := by omega
  have h2 : (a + 256 * b + 65536 * c + 16777216 * d) / 256 % 256 = b := by
    omega
  have h3 : (a + 256 * b + 65536 * c + 16777216 * d) / 65536 % 256 = c := by
    omega
  have h4 : (a + 256 * b + 65536 * c + 16777216 * d) / 16777216 % 256 = d := by
    omega
  rw [h1, h2, h3, h4]

theorem le16enc_pair (t1 t2 : Nat) (h1 : t1 < 256) (h2 : t2 < 256) :
    le16enc (t1 + 256 * t2) = [t1, t2] := by
  unfold le16enc
  have e1 : (t1 + 256 * t2) % 256 = t1 := by omega
  have e2 : (t1 + 256 * t2) / 256 % 256 = t2 := by omega
  rw [e1, e2]

/-- C6.  Framing round-trip: re-encoding any message obtained by a
successful decode of a byte sequence reproduces that byte sequence
exactly. -/
theorem framing_round_trip (bs : List Nat) (m : WireMsg)
    (hb : ∀ x ∈ bs, x < 256) (h : decode bs = some m) : encode m = bs := by
  rcases bs with _ | ⟨a, bs⟩
  · exact absurd h (by simp [decode])
  rcases bs with _ | ⟨b, bs⟩
  · exact absurd h (by simp [decode])
  rcases bs with _ | ⟨c, bs⟩
  · exact absurd h (by simp [decode])
  rcases bs with _ | ⟨d, bs⟩
  · exact absurd h (by simp [decode])
  rcases bs with _ | ⟨t, bs⟩
  · exact absurd h (by simp [decode])
  rcases bs with _ | ⟨t1, bs⟩
  · exact absurd h (by simp [decode])
  rcases bs with _ | ⟨t2, body⟩
  · exact absurd h (by simp [decode])
  have h2 : (if (a + 256 * b + 65536 * c + 16777216 * d = 7 + body.length ∧
      knownType t = true) then
        some { mtype := t, tag := t1 + 256 * t2, body := body }
      else (none : Option WireMsg)) = some m := h
  by_cases hcond : (a + 256 * b + 65536 * c + 16777216 * d =
      7 + body.length ∧ knownType t = true)
  · rw [if_pos hcond] at h2
    injection h2 with hm
    subst hm
    unfold encode
    have hbl : le32enc (7 + body.length) = [a, b, c, d] := by
      rw [← hcond.1]
      exact le32enc_le32val a b c d
        (hb a (by simp)) (hb b (by simp)) (hb c (by simp)) (hb d (by simp))
    have htg : le16enc (t1 + 256 * t2) = [t1, t2] :=
      le16enc_pair t1 t2 (hb t1 (by simp)) (hb t2 (by simp))
    rw [hbl, htg]
    rfl
  · rw [if_neg hcond] at h2
    exact Option.noConfusion h2

theorem framing_round_trip_witness :
    decode [10, 0, 0, 0, 110, 5, 0, 9, 9, 9] =
      some { mtype := 110, tag := 5, body := [9, 9, 9] } ∧
    encode { mtype := 110, tag := 5, body := [9, 9, 9] } =
      [10, 0, 0, 0, 110, 5, 0, 9, 9, 9] := by
  refine ⟨by decide, ?_⟩
  exact framing_round_trip [10, 0, 0, 0, 110, 5, 0, 9, 9, 9]
    { mtype := 110, tag := 5, body := [9, 9, 9] } (by decide) (by decide)

/-- C8.  Mount (non-Plan 9) performs no retry or reconnect: it invokes
MountService exactly once (the call counter advances by exactly one);
if the dial fails, Mount returns a nil Fsys together with that same
error; if it succeeds, Mount wraps exactly the freshly dialed
connection. -/
theorem mount_p9p_single_dial (d : Dialer) (s : DialSt) :
    (AcmeP9p.Mount d s).2.calls = s.calls + 1 ∧
    (∀ e, d.outcome s.calls = Except.error e →
      (AcmeP9p.Mount d s).1 = (none, some e)) ∧
    (∀ fs, d.outcome s.calls = Except.ok fs →
      (AcmeP9p.Mount d s).1 = (some { fs := fs }, none)) := by
  refine ⟨?_, ?_, ?_⟩
  · unfold AcmeP9p.Mount mountService
    cases d.outcome s.calls <;> rfl
  · intro e he
    simp [AcmeP9p.Mount, mountService, he]
  · intro fs hfs
    simp [AcmeP9p.Mount, mountService, hfs]

theorem mount_p9p_single_dial_witness :
    ({ outcome := fun _ => Except.error ("dial failed") } : Dialer).outcome 0 =
      Except.error ("dial failed") ∧
    (AcmeP9p.Mount { outcome := fun _ => Except.error ("dial failed") }
      { calls := 0 }).1 = (none, some ("dial failed")) ∧
    (AcmeP9p.Mount { outcome := fun _ => Except.error ("dial failed") }
      { calls := 0 }).2.calls = 1 := by
  refine ⟨rfl, ?_, ?_⟩
  · exact (mount_p9p_single_dial
      { outcome := fun _ => Except.error ("dial failed") } { calls := 0 }).2.1
      "dial failed" rfl
  · exact (mount_p9p_single_dial
      { outcome := fun _ => Except.error ("dial failed") } { calls := 0 }).1

theorem acme_reach_char {st : AcmeSt} (h : ReachAcme st) :
    st = {} ∨ (st.onceDone = true ∧
      st.defaultFsys = some { fs := { mtpt := "/mnt/acme" } }) := by
  induction h with
  | init => exact Or.inl rfl
  | step st2 h2 ih =>
    rcases ih with he | ⟨hd, hf⟩
    · subst he
      exact Or.inr ⟨rfl, rfl⟩
    · right
      have hst : (AcmePlan9.Mount st2).2 = st2 := by
        simp [AcmePlan9.Mount, hd]
      rw [hst]
      exact ⟨hd, hf⟩

/-- C10.  Plan 9 Mount never fails: from the package's initial state,
every Mount call returns a nil error and the Fsys whose mount point is
/mnt/acme — the same value on every call — and the state after the
first call is a fixpoint, so the default is initialized exactly
once. -/
theorem mount_plan9_never_fails (st : AcmeSt) (h : ReachAcme st) :
    (AcmePlan9.Mount st).1 =
      (some { fs := { mtpt := "/mnt/acme" } }, none) ∧
    (AcmePlan9.Mount ((AcmePlan9.Mount st).2)).2 = (AcmePlan9.Mount st).2 := by
  rcases acme_reach_char h with he | ⟨hd, hf⟩
  · subst he
    exact ⟨rfl, rfl⟩
  · constructor
    · simp [AcmePlan9.Mount, hd, hf]
    · simp [AcmePlan9.Mount, hd]

theorem mount_plan9_never_fails_witness :
    ReachAcme ({} : AcmeSt) ∧
    (AcmePlan9.Mount ({} : AcmeSt)).1 =
      (some { fs := { mtpt := "/mnt/acme" } }, none) :=
  ⟨ReachAcme.init, (mount_plan9_never_fails {} ReachAcme.init).1⟩

end NineFans
